import Mathlib

/-!
Shallow embedding of `src/downloader.py`, a declarative batch file fetcher,
together with proofs about its download-verify-retry pipeline.

The Python program's external effects are made explicit:
* the local filesystem is an association list from absolute paths to byte
  contents;
* the network maps a URL to an optional `Content-Length` header value and a
  body;
* `hashlib` is an abstract `HashSpec` parameter (which algorithm names are
  supported, and what hex digest an algorithm yields on given contents);
* everything a run prints or does (console lines, progress ticks, network
  fetches, deletions, assignments to a `File`'s `size` field) is recorded in
  an event trace;
* uncaught Python exceptions are `Except.error` values.
-/

namespace Downloader

/-- Byte contents of a file (one `Nat` per byte). -/
abbrev Bytes := List Nat

/-- The local filesystem: association list from absolute paths to contents. -/
abbrev Fs := List (String × Bytes)

/-- `os.path.exists` / `open(path, 'rb')`: look a path up. -/
def fsLookup : Fs → String → Option Bytes
  | [], _ => none
  | e :: rest, p => if e.1 = p then some e.2 else fsLookup rest p

/-- `os.unlink`: delete a path. -/
def fsRemove : Fs → String → Fs
  | [], _ => []
  | e :: rest, p => if e.1 = p then fsRemove rest p else e :: fsRemove rest p

/-- `open(path, 'wb')` followed by a full write: create or overwrite. -/
def fsSet (fs : Fs) (p : String) (c : Bytes) : Fs :=
  (p, c) :: fsRemove fs p

/-- The network: association list from URL to
(optional `Content-Length` header value, body bytes). -/
abbrev Net := List (String × (Option Int × Bytes))

/-- `urllib.request.urlopen`: an absent URL models a transport failure. -/
def netLookup : Net → String → Option (Option Int × Bytes)
  | [], _ => none
  | e :: rest, u => if e.1 = u then some e.2 else netLookup rest u

/-- `hashlib`, abstracted: which algorithm names `hashlib.new` accepts, and
the hex digest an algorithm produces on given contents (feeding a file
chunk-by-chunk to an engine digests exactly the full contents). -/
structure HashSpec where
  supported : String → Bool
  digest : String → Bytes → String

/-- `int(up.getheader('Content-Length', -1))`: a missing header becomes `-1`. -/
def hdrSize : Option Int → Int
  | some n => n
  | none => -1

/-- A division fault (Python `ZeroDivisionError`). -/
inductive Fault where
  | zeroDivision
deriving DecidableEq

/-- Python `int(a / b)` on integers as it appears in `Progress.update`:
true division truncated toward zero, raising on a zero divisor. -/
def pydiv (a b : Int) : Except Fault Int :=
  if b = 0 then .error .zeroDivision else .ok (Int.tdiv a b)

/-- Uncaught Python exceptions that propagate out of the pipeline. -/
inductive Err where
  | unsupportedAlgo (algo : String)
  | fileNotFound (path : String)
  | network (url : String)
  | fault (f : Fault)
deriving DecidableEq

/-- One token of console output. -/
inductive Out where
  | header (s : String)
  | itick (prog : Int) (eta : Int × Int × Int)
  | pct (n : Int)
  | dot
  | newline
deriving DecidableEq

/-- State of `class Progress`: a label, the `time_ns` at `start`, and the
last percentage printed (the non-interactive dedup value). -/
structure Progress where
  pfx : String
  start_ts : Int
  last : Int
deriving DecidableEq

/-- `Progress.__init__`. -/
def Progress.init : Progress := { pfx := "", start_ts := 0, last := -1 }

/-- `Progress.start`: records the label and the current time, and prints a
header when output is neither a terminal nor quiet.  `last` is untouched. -/
def Progress.start (p : Progress) (pfx : String) (now : Int) (quiet isatty : Bool) :
    Progress × List Out :=
  ({ pfx := pfx, start_ts := now, last := p.last },
   if !isatty && !quiet then [.header (pfx ++ ":")] else [])

/-- The non-interactive branch's output for a percentage that survived
deduplication: `NN%` at a multiple of ten, a dot at an even value, nothing
otherwise. -/
def emit (prog : Int) : List Out :=
  if Int.emod prog 10 = 0 then [.pct prog]
  else if Int.emod prog 2 = 0 then [.dot]
  else []

/-- `Progress.update`.  The two data-dependent divisions of the source (by
`current` for the ETA, by `total` for the percentage) go through `pydiv`;
the remaining divisions are by nonzero numeric literals.  The interactive
branch re-renders the line and leaves the state alone; the non-interactive
branch deduplicates against `last`, emits a tick, and records `last`. -/
def Progress.update (p : Progress) (current total : Int) (quiet isatty : Bool)
    (now : Int) : Except Fault (Progress × List Out) :=
  if current = 0 ∨ total = 0 ∨ quiet = true then .ok (p, [])
  else
    match pydiv total current with
    | .error e => .error e
    | .ok tdivc =>
      match pydiv (100 * current) total with
      | .error e => .error e
      | .ok prog =>
        let elapsed := now - p.start_ts
        let remaining := elapsed * tdivc - elapsed
        let eta : Int × Int × Int :=
          (Int.tdiv remaining (1000000000 * 3600),
           Int.emod (Int.tdiv remaining (1000000000 * 60)) 60,
           Int.emod (Int.tdiv remaining 1000000000) 60)
        if isatty then .ok (p, [.itick prog eta])
        else if prog = p.last then .ok (p, [])
        else .ok ({ p with last := prog }, emit prog)

/-- `Progress.end`: prints a trailing newline, always. -/
def Progress.endOp : List Out := [.newline]

/-- Drive one progress session over a list of `(current, total)` sink
calls, threading the state and concatenating the output. -/
def runUpdates (quiet isatty : Bool) (now : Int) :
    Progress → List (Int × Int) → Except Fault (Progress × List Out)
  | p, [] => .ok (p, [])
  | p, ct :: rest =>
    match Progress.update p ct.1 ct.2 quiet isatty now with
    | .error e => .error e
    | .ok (p1, o1) =>
      match runUpdates quiet isatty now p1 rest with
      | .error e => .error e
      | .ok (p2, o2) => .ok (p2, o1 ++ o2)

/-- Cumulative byte counts after each successive `read(512)` of an
`n`-byte stream (the chunk loops of `File.download` and `File.validate`). -/
def chunkMarks (n : Nat) : List Nat :=
  (List.range ((n + 511) / 512)).map (fun i => min (512 * (i + 1)) n)

/-- Events of a run. -/
inductive Ev where
  | print (s : String)
  | out (o : Out)
  | fetch (url : String)
  | unlink (path : String)
  | setSize (n : Int)
deriving DecidableEq

/-- Is the event a network fetch? -/
def isFetch : Ev → Bool
  | .fetch _ => true
  | _ => false

/-- Is the event an assignment to a `File`'s `size` field? -/
def isSetSize : Ev → Bool
  | .setSize _ => true
  | _ => false

/-- Number of network fetch attempts in a trace. -/
def countFetch (evs : List Ev) : Nat := evs.countP isFetch

/-- Number of `size` assignments in a trace. -/
def countSetSize (evs : List Ev) : Nat := evs.countP isSetSize

/-- `class File`.  `size` is `0` until assigned. -/
structure File where
  name : String
  size : Int
  destdir : String
  url : String
  checksums : List (String × String)
deriving DecidableEq

/-- `os.path.join` on the plain relative segments the manifest uses. -/
def pathJoin (a b : String) : String := a ++ "/" ++ b

/-- `File.__init__`: resolves `destdir` against the process root directory
and substitutes `$(name)` in the URL template (`os.path.normpath` is the
identity on the already-normal paths this model manipulates); `checksums`
is filled in by the manifest parser, never mutated afterwards. -/
def File.make (rootdir name destdir url : String)
    (checksums : List (String × String)) : File :=
  { name := name, size := 0, destdir := pathJoin rootdir destdir,
    url := url.replace "$(name)" name, checksums := checksums }

/-- The stable absolute path `destdir`/`name` of a file. -/
def File.path (f : File) : String := pathJoin f.destdir f.name

/-- `File.exists`: `os.path.exists` then `os.lstat`, recording `st_size`
into `size` when (and only when) the path is present. -/
def File.existsCheck (fs : Fs) (f : File) : Bool × File × List Ev :=
  match fsLookup fs (File.path f) with
  | some c => (true, { f with size := (c.length : Int) }, [.setSize (c.length : Int)])
  | none => (false, f, [])

/-- First checksum algorithm name `hashlib.new` rejects, scanning in
configuration order (engine construction precedes opening the file). -/
def firstUnsupported (hs : HashSpec) : List (String × String) → Option String
  | [] => none
  | (algo, _) :: rest => if hs.supported algo then firstUnsupported hs rest else some algo

/-- `File.validate`: builds one engine per configured algorithm, streams the
local file in 512-byte chunks feeding every engine and the progress sink
with `(nread, self.size)`, then succeeds iff every recorded digest matches
the computed one (exact string comparison). -/
def File.validate (hs : HashSpec) (fs : Fs) (f : File) (pr : Progress)
    (quiet isatty : Bool) (now : Int) : Except Err (Bool × Progress × List Ev) :=
  match firstUnsupported hs f.checksums with
  | some algo => .error (.unsupportedAlgo algo)
  | none =>
    match fsLookup fs (File.path f) with
    | none => .error (.fileNotFound (File.path f))
    | some c =>
      match runUpdates quiet isatty now pr
          ((chunkMarks c.length).map (fun m => (Int.ofNat m, f.size))) with
      | .error e => .error (.fault e)
      | .ok (pr', outs) =>
        .ok (f.checksums.all (fun ad => hs.digest ad.1 c == ad.2), pr',
             outs.map Ev.out)

/-- `File.download`: `urlopen` the resolved URL, record the declared
`Content-Length` (`-1` when absent) into `size`, stream the body to the
destination (overwriting) in 512-byte chunks feeding the progress sink with
`(nread, self.size)`. -/
def File.download (net : Net) (fs : Fs) (f : File) (pr : Progress)
    (quiet isatty : Bool) (now : Int) : Except Err (File × Fs × Progress × List Ev) :=
  match netLookup net f.url with
  | none => .error (.network f.url)
  | some (hdr, body) =>
    match runUpdates quiet isatty now pr
        ((chunkMarks body.length).map (fun m => (Int.ofNat m, hdrSize hdr))) with
    | .error e => .error (.fault e)
    | .ok (pr', outs) =>
      .ok ({ f with size := hdrSize hdr }, fsSet fs (File.path f) body, pr',
           .fetch f.url :: .setSize (hdrSize hdr) :: outs.map Ev.out)

/-- Lines 71-79 of `Entry.download`: fetch the file, then verify it; on a
verification failure print the mismatch and delete the fresh copy, without
raising. -/
def downloadPhase (hs : HashSpec) (net : Net) (fs : Fs) (f : File) (pr : Progress)
    (quiet isatty : Bool) (now : Int) : Except Err (Fs × File × Progress × List Ev) :=
  match Progress.start pr "    - downloading" now quiet isatty with
  | (prA, oA) =>
    match File.download net fs f prA quiet isatty now with
    | .error e => .error e
    | .ok (f2, fs2, prB, eD) =>
      match Progress.start prB "    - checksuming" now quiet isatty with
      | (prC, oC) =>
        match File.validate hs fs2 f2 prC quiet isatty now with
        | .error e => .error e
        | .ok (st, prD, eV) =>
          let evs := oA.map Ev.out ++ eD ++ [Ev.out Out.newline] ++
            oC.map Ev.out ++ eV ++ [Ev.out Out.newline]
          if st then .ok (fs2, f2, prD, evs)
          else .ok (fsRemove fs2 (File.path f2), f2, prD,
            evs ++ [.print ("    - " ++ f.name ++ ": checksum mismatch"),
                    .unlink (File.path f2)])

/-- The per-file body of `Entry.download` (lines 55-79): announce the file;
when a local copy exists, verify it and either keep it (skip to the next
file) or delete the stale copy and fall through to the fetch phase; when no
local copy exists, go straight to the fetch phase.  (`os.makedirs` on the
destination directory has no effect in this file model.) -/
def processFile (hs : HashSpec) (net : Net) (fs : Fs) (f : File) (pr : Progress)
    (quiet isatty : Bool) (now : Int) : Except Err (Fs × File × Progress × List Ev) :=
  let e0 : List Ev := [.print ("  + " ++ f.name ++ ":")]
  match File.existsCheck fs f with
  | (true, f1, e1) =>
    match Progress.start pr "    - checksuming" now quiet isatty with
    | (prA, oA) =>
      match File.validate hs fs f1 prA quiet isatty now with
      | .error e => .error e
      | .ok (st, prB, e2) =>
        let e3 := e0 ++ e1 ++ oA.map Ev.out ++ e2 ++ [Ev.out Out.newline]
        if st then
          .ok (fs, f1, prB,
            e3 ++ [.print ("    - " ++ f.name ++ ": already downloaded")])
        else
          match downloadPhase hs net (fsRemove fs (File.path f1)) f1 prB quiet isatty now with
          | .error e => .error e
          | .ok (fs', f2, pr', e5) =>
            .ok (fs', f2, pr',
              e3 ++ [.print ("    - " ++ f.name ++ ": checksum mismatch. retrying..."),
                     .unlink (File.path f1)] ++ e5)
  | (false, f1, e1) =>
    match downloadPhase hs net fs f1 pr quiet isatty now with
    | .error e => .error e
    | .ok (fs', f2, pr', e5) => .ok (fs', f2, pr', e0 ++ e1 ++ e5)

/-- `class Entry`: a named ordered group of files. -/
structure Entry where
  name : String
  files : List File
deriving DecidableEq

/-- The file loop of `Entry.download`, threading the filesystem and the
single per-entry `Progress` object through the files in manifest order. -/
def entryFiles (hs : HashSpec) (net : Net) (quiet isatty : Bool) (now : Int) :
    Fs → Progress → List File → Except Err (Fs × Progress × List Ev)
  | fs, pr, [] => .ok (fs, pr, [])
  | fs, pr, f :: rest =>
    match processFile hs net fs f pr quiet isatty now with
    | .error e => .error e
    | .ok (fs', _, pr', evs) =>
      match entryFiles hs net quiet isatty now fs' pr' rest with
      | .error e => .error e
      | .ok (fs'', pr'', evs') => .ok (fs'', pr'', evs ++ evs')

/-- `Entry.download` (lines 51-79): create one fresh `Progress` object for
the entry, announce the entry, then process its files in order. -/
def Entry.download (hs : HashSpec) (net : Net) (e : Entry) (fs : Fs)
    (quiet isatty : Bool) (now : Int) : Except Err (Fs × List Ev) :=
  match entryFiles hs net quiet isatty now fs Progress.init e.files with
  | .error er => .error er
  | .ok (fs', _, evs) => .ok (fs', .print ("* " ++ e.name ++ ":") :: evs)

/-- The entry loop at the end of `main` (line 244-245). -/
def runEntries (hs : HashSpec) (net : Net) (quiet isatty : Bool) (now : Int) :
    Fs → List Entry → Except Err (Fs × List Ev)
  | fs, [] => .ok (fs, [])
  | fs, e :: rest =>
    match Entry.download hs net e fs quiet isatty now with
    | .error er => .error er
    | .ok (fs', evs) =>
      match runEntries hs net quiet isatty now fs' rest with
      | .error er => .error er
      | .ok (fs'', evs') => .ok (fs'', evs ++ evs')

/-- The effectful tail of `main` (lines 213, 244-247): `open` creates
`/tmp/download.lock`, the parsed entries are downloaded in order, and the
final cleanup `os.unlink`s the one-character-different path
`/tmp/downloader.lock`, raising `FileNotFoundError` when it is absent. -/
def mainModel (hs : HashSpec) (net : Net) (entries : List Entry) (fs0 : Fs)
    (quiet isatty : Bool) (now : Int) : Except Err (Fs × List Ev) :=
  let fs1 := fsSet fs0 "/tmp/download.lock" []
  match runEntries hs net quiet isatty now fs1 entries with
  | .error er => .error er
  | .ok (fs2, evs) =>
    match fsLookup fs2 "/tmp/downloader.lock" with
    | none => .error (.fileNotFound "/tmp/downloader.lock")
    | some _ => .ok (fsRemove fs2 "/tmp/downloader.lock", evs)

/-- The `__main__` wrapper: `main` falling through returns `None`, which
`sys.exit` maps to status 0; an uncaught exception is printed and mapped
to status 99. -/
def exitCode (r : Except Err (Fs × List Ev)) : Int :=
  match r with
  | .ok _ => 0
  | .error _ => 99

/-- Specification view of one non-interactive `update` call that passed the
zero/quiet guard: deduplicate against `last`, emit, record. -/
def tick (p : Progress) (prog : Int) : Progress × List Out :=
  if prog = p.last then (p, []) else ({ p with last := prog }, emit prog)

/-- Final `last` value after a run of guarded non-interactive updates. -/
def lastAfter : Int → List Int → Int
  | l, [] => l
  | _, g :: gs => lastAfter g gs

/-- The specification run: `tick` folded over a list of percentages. -/
def ticksSpec : Progress → List Int → Progress × List Out
  | p, [] => (p, [])
  | p, g :: gs =>
    ((ticksSpec (tick p g).1 gs).1, (tick p g).2 ++ (ticksSpec (tick p g).1 gs).2)

/-- Adjacent deduplication against a running previous value: exactly the
percentages that survive `update`'s `prog == self.last` guard. -/
def dedupFrom (l : Int) : List Int → List Int
  | [] => []
  | g :: gs => if g = l then dedupFrom l gs else g :: dedupFrom g gs

/-- The percentage a guarded pair produces: `int((100 * current) / total)`. -/
def progOf (ct : Int × Int) : Int := Int.tdiv (100 * ct.1) ct.2

/-- The percentages a non-interactive output stream prints. -/
def printedPcts (os : List Out) : List Int :=
  os.filterMap fun o =>
    match o with
    | .pct nn => some nn
    | _ => none

/-- The dots a non-interactive output stream prints. -/
def countDots (os : List Out) : Nat :=
  os.countP fun o => o = Out.dot

/-- Is the event a progress-header print (one per `Progress.start` in
non-interactive, non-quiet mode)? -/
def isHeader : Ev → Bool
  | .out (.header _) => true
  | _ => false

/-- Number of operation headers printed in a trace. -/
def countHeaders (evs : List Ev) : Nat := evs.countP isHeader

/-- Number of `100%` ticks printed in a trace. -/
def countPct100 (evs : List Ev) : Nat :=
  evs.countP fun e => e = Ev.out (Out.pct 100)

/-- Trace projection of an entry-level run (empty on an uncaught error). -/
def evsOfEntry (r : Except Err (Fs × List Ev)) : List Ev :=
  match r with
  | .ok (_, evs) => evs
  | .error _ => []

/-- Trace projection of a per-file run (empty on an uncaught error). -/
def traceOfPF (r : Except Err (Fs × File × Progress × List Ev)) : List Ev :=
  match r with
  | .ok (_, _, _, evs) => evs
  | .error _ => []

/-- A concrete hash collaborator for evaluating the model: one supported
algorithm name, digesting contents to their decimal length. -/
def hsW : HashSpec :=
  { supported := fun a => a == "alg", digest := fun _ c => Nat.repr c.length }

/-- A concrete file record (as the manifest parser would produce it)
expecting a 3-byte body. -/
def fW : File :=
  { name := "a", size := 0, destdir := "r/d", url := "u",
    checksums := [("alg", "3")] }

/-- A concrete file record with no configured checksums. -/
def fW0 : File :=
  { name := "a", size := 0, destdir := "r/d", url := "u", checksums := [] }

/-- A concrete file record whose checksum never matches under `hsW`. -/
def fW9 : File :=
  { name := "a", size := 0, destdir := "r/d", url := "u",
    checksums := [("alg", "999")] }

/-- A concrete file record configured with an algorithm name `hsW` does not
support. -/
def fWbad : File :=
  { name := "a", size := 0, destdir := "r/d", url := "u",
    checksums := [("nope", "3")] }

/-- A network serving a healthy 3-byte body for `fW`. -/
def netW : Net := [("u", (some 3, [7, 7, 7]))]

/-- A network serving a response with no `Content-Length` header. -/
def net5 : Net := [("u", (none, [7, 7, 7]))]

/-- A network serving a 3-byte body with a declared length of 3. -/
def net6 : Net := [("u", (some 3, [1, 1, 1]))]

/-- A filesystem holding a stale 3-byte copy of `fW9`'s file. -/
def fs6 : Fs := [("r/d/a", [0, 0, 0])]

/-- An entry holding the never-matching file. -/
def eC6 : Entry := { name := "e", files := [fW9] }

/-- `Progress.update` never raises a division fault: both data-dependent
divisors (`current` and `total`) are exactly the quantities the guard
checks against zero. -/
theorem update_ok (p : Progress) (c t : Int) (q i : Bool) (n : Int) :
    ∃ r, Progress.update p c t q i n = .ok r := by
  unfold Progress.update
  split
  · exact ⟨_, rfl⟩
  · rename_i h
    push_neg at h
    simp only [pydiv, if_neg h.1, if_neg h.2.1]
    split
    · exact ⟨_, rfl⟩
    · split
      · exact ⟨_, rfl⟩
      · exact ⟨_, rfl⟩

/-- In non-quiet, non-interactive mode a guarded `update` call is exactly
a `tick`. -/
theorem update_nontty (p : Progress) (c t : Int) (n : Int)
    (hc : c ≠ 0) (ht : t ≠ 0) :
    Progress.update p c t false false n = .ok (tick p (Int.tdiv (100 * c) t)) := by
  unfold Progress.update tick
  rw [if_neg (by simp [hc, ht])]
  simp only [pydiv, if_neg hc, if_neg ht]
  rw [if_neg Bool.false_ne_true]
  split <;> rfl

/-- A whole progress session never raises a division fault. -/
theorem runUpdates_ok (q i : Bool) (n : Int) :
    ∀ (pairs : List (Int × Int)) (p : Progress),
      ∃ p' os, runUpdates q i n p pairs = .ok (p', os)
  | [], p => ⟨p, [], rfl⟩
  | ct :: rest, p => by
    obtain ⟨⟨p1, o1⟩, h1⟩ := update_ok p ct.1 ct.2 q i n
    obtain ⟨p2, os, h2⟩ := runUpdates_ok q i n rest p1
    exact ⟨p2, o1 ++ os, by simp only [runUpdates, h1, h2]⟩

/-- A guarded non-quiet, non-interactive progress session is `ticksSpec`
on the pairs' percentages. -/
theorem runUpdates_nontty (n : Int) :
    ∀ (pairs : List (Int × Int)) (p : Progress),
      (∀ ct ∈ pairs, ct.1 ≠ 0 ∧ ct.2 ≠ 0) →
      runUpdates false false n p pairs = .ok (ticksSpec p (pairs.map progOf))
  | [], _, _ => rfl
  | ct :: rest, p, h => by
    have hct := h ct (List.mem_cons_self ct rest)
    have hupd := update_nontty p ct.1 ct.2 n hct.1 hct.2
    have ih := runUpdates_nontty n rest (tick p (progOf ct)).1
      (fun x hx => h x (List.mem_cons_of_mem ct hx))
    rcases htk : tick p (progOf ct) with ⟨p1, o1⟩
    rcases hts : ticksSpec p1 (rest.map progOf) with ⟨p2, o2⟩
    rw [htk] at ih
    rw [hts] at ih
    simp only [runUpdates, List.map_cons, ticksSpec, progOf] at *
    rw [hupd, htk]
    simp only [ih, hts]

/-- `ticksSpec` only mutates `last`, and its output is the adjacent-deduped
percentage list rendered by `emit`. -/
theorem ticksSpec_eq : ∀ (gs : List Int) (p : Progress),
    ticksSpec p gs =
      ({ pfx := p.pfx, start_ts := p.start_ts, last := lastAfter p.last gs },
       (dedupFrom p.last gs).flatMap emit)
  | [], _ => rfl
  | g :: gs, p => by
    by_cases hg : g = p.last
    · have h1 : tick p g = (p, []) := by
        unfold tick
        rw [if_pos hg]
      have hded : dedupFrom p.last (g :: gs) = dedupFrom p.last gs := by
        show (if g = p.last then dedupFrom p.last gs else g :: dedupFrom g gs) =
          dedupFrom p.last gs
        rw [if_pos hg]
      have hlast : lastAfter p.last (g :: gs) = lastAfter p.last gs := by
        show lastAfter g gs = lastAfter p.last gs
        rw [hg]
      rw [hded, hlast, ← ticksSpec_eq gs p]
      simp only [ticksSpec, h1, List.nil_append]
    · have h1 : tick p g = ({ p with last := g }, emit g) := by
        unfold tick
        rw [if_neg hg]
      have hded : dedupFrom p.last (g :: gs) = g :: dedupFrom g gs := by
        show (if g = p.last then dedupFrom p.last gs else g :: dedupFrom g gs) =
          g :: dedupFrom g gs
        rw [if_neg hg]
      have hlast : lastAfter p.last (g :: gs) = lastAfter g gs := rfl
      have ih := ticksSpec_eq gs { p with last := g }
      rw [hded, hlast]
      simp only [ticksSpec, h1, ih, List.flatMap_cons]

/-- Membership in `dedupFrom` for a monotone list starting above `l`. -/
theorem mem_dedupFrom : ∀ (gs : List Int) (l x : Int),
    gs.Pairwise (· ≤ ·) → (∀ g ∈ gs, l ≤ g) →
    (x ∈ dedupFrom l gs ↔ x ∈ gs ∧ x ≠ l)
  | [], l, x, _, _ => by simp [dedupFrom]
  | g :: gs, l, x, hs, hl => by
    have hsg := List.pairwise_cons.mp hs
    by_cases hg : g = l
    · subst hg
      rw [dedupFrom, if_pos rfl, mem_dedupFrom gs g x hsg.2 hsg.1]
      constructor
      · rintro ⟨hx, hne⟩
        exact ⟨List.mem_cons_of_mem _ hx, hne⟩
      · rintro ⟨hx, hne⟩
        rcases List.mem_cons.mp hx with h | h
        · exact absurd h hne
        · exact ⟨h, hne⟩
    · rw [dedupFrom, if_neg hg]
      have hmem := mem_dedupFrom gs g x hsg.2 hsg.1
      constructor
      · intro hx
        rcases List.mem_cons.mp hx with h | h
        · subst h
          exact ⟨List.mem_cons_self _ _, hg⟩
        · obtain ⟨h1, h2⟩ := hmem.mp h
          have hgx := hsg.1 x h1
          have hlg : l ≤ g := hl g (List.mem_cons_self _ _)
          exact ⟨List.mem_cons_of_mem _ h1, by omega⟩
      · rintro ⟨hx, hne⟩
        rcases List.mem_cons.mp hx with h | h
        · subst h
          exact List.mem_cons_self _ _
        · by_cases hxg : x = g
          · subst hxg
            exact List.mem_cons_self _ _
          · exact List.mem_cons_of_mem _ (hmem.mpr ⟨h, hxg⟩)

/-- On a monotone list starting above `l`, adjacent deduplication yields a
strictly increasing list. -/
theorem pairwise_dedupFrom : ∀ (gs : List Int) (l : Int),
    gs.Pairwise (· ≤ ·) → (∀ g ∈ gs, l ≤ g) →
    (dedupFrom l gs).Pairwise (· < ·)
  | [], _, _, _ => List.Pairwise.nil
  | g :: gs, l, hs, hl => by
    have hsg := List.pairwise_cons.mp hs
    by_cases hg : g = l
    · rw [dedupFrom, if_pos hg]
      exact pairwise_dedupFrom gs l hsg.2
        (fun a ha => hg ▸ hsg.1 a ha)
    · rw [dedupFrom, if_neg hg]
      refine List.pairwise_cons.mpr ⟨?_, pairwise_dedupFrom gs g hsg.2 hsg.1⟩
      intro a ha
      obtain ⟨hag, hane⟩ := (mem_dedupFrom gs g a hsg.2 hsg.1).mp ha
      have := hsg.1 a hag
      omega

/-- `emit` at a multiple of ten. -/
theorem emit_pct (g : Int) (h : Int.emod g 10 = 0) : emit g = [Out.pct g] := by
  unfold emit
  rw [if_pos h]

/-- `emit` at an even non-multiple of ten. -/
theorem emit_dot (g : Int) (h10 : ¬ Int.emod g 10 = 0) (h2 : Int.emod g 2 = 0) :
    emit g = [Out.dot] := by
  unfold emit
  rw [if_neg h10, if_pos h2]

/-- `emit` at an odd percentage. -/
theorem emit_none (g : Int) (h10 : ¬ Int.emod g 10 = 0) (h2 : ¬ Int.emod g 2 = 0) :
    emit g = [] := by
  unfold emit
  rw [if_neg h10, if_neg h2]

theorem printedPcts_append (a b : List Out) :
    printedPcts (a ++ b) = printedPcts a ++ printedPcts b :=
  List.filterMap_append a b _

theorem countDots_append (a b : List Out) :
    countDots (a ++ b) = countDots a + countDots b :=
  List.countP_append _ a b

/-- `emit` prints a percentage token exactly at multiples of ten. -/
theorem printedPcts_flatMap (ds : List Int) :
    printedPcts (ds.flatMap emit) = ds.filter (fun g => Int.emod g 10 = 0) := by
  induction ds with
  | nil => rfl
  | cons g ds ih =>
    rw [List.flatMap_cons, printedPcts_append, ih, List.filter_cons]
    by_cases h10 : Int.emod g 10 = 0
    · rw [emit_pct g h10]
      simp [printedPcts, h10]
    · by_cases h2 : Int.emod g 2 = 0
      · rw [emit_dot g h10 h2]
        simp [printedPcts, h10]
      · rw [emit_none g h10 h2]
        simp [printedPcts, h10]

/-- `emit` prints a dot exactly at even non-multiples of ten. -/
theorem countDots_flatMap (ds : List Int) :
    countDots (ds.flatMap emit) =
      (ds.filter (fun g => ¬ Int.emod g 10 = 0 ∧ Int.emod g 2 = 0)).length := by
  induction ds with
  | nil => rfl
  | cons g ds ih =>
    rw [List.flatMap_cons, countDots_append, ih, List.filter_cons]
    by_cases h10 : Int.emod g 10 = 0
    · rw [emit_pct g h10]
      simp [countDots, h10]
    · by_cases h2 : Int.emod g 2 = 0
      · rw [emit_dot g h10 h2]
        simp [countDots, h10, h2]
        omega
      · rw [emit_none g h10 h2]
        simp [countDots, h10, h2]

/-- A freshly written path reads back as what was written. -/
theorem fsLookup_set_self (fs : Fs) (p : String) (c : Bytes) :
    fsLookup (fsSet fs p c) p = some c := by
  show (if p = p then some c else fsLookup (fsRemove fs p) p) = some c
  rw [if_pos rfl]

/-- A deleted path no longer resolves. -/
theorem fsLookup_remove_self (fs : Fs) (p : String) :
    fsLookup (fsRemove fs p) p = none := by
  induction fs with
  | nil => rfl
  | cons e fs ih =>
    show fsLookup (if e.1 = p then fsRemove fs p else e :: fsRemove fs p) p = none
    by_cases h : e.1 = p
    · rw [if_pos h]
      exact ih
    · rw [if_neg h]
      show (if e.1 = p then some e.2 else fsLookup (fsRemove fs p) p) = none
      rw [if_neg h]
      exact ih

/-- `File.exists` on a present path. -/
theorem existsCheck_some {fs : Fs} {f : File} {c : Bytes}
    (h : fsLookup fs (File.path f) = some c) :
    File.existsCheck fs f =
      (true, { f with size := (c.length : Int) }, [.setSize (c.length : Int)]) := by
  unfold File.existsCheck
  rw [h]

/-- `File.exists` on an absent path. -/
theorem existsCheck_none {fs : Fs} {f : File}
    (h : fsLookup fs (File.path f) = none) :
    File.existsCheck fs f = (false, f, []) := by
  unfold File.existsCheck
  rw [h]

/-- `File.validate` on a readable file with only supported algorithms:
it returns the all-digests-match verdict and only progress output. -/
theorem validate_char {hs : HashSpec} {fs : Fs} {f : File} {c : Bytes}
    (pr : Progress) (q i : Bool) (n : Int)
    (hsup : firstUnsupported hs f.checksums = none)
    (hc : fsLookup fs (File.path f) = some c) :
    ∃ pr' outs, File.validate hs fs f pr q i n =
      .ok (f.checksums.all (fun ad => hs.digest ad.1 c == ad.2), pr',
           List.map Ev.out outs) := by
  obtain ⟨p', os, hrun⟩ := runUpdates_ok q i n
    ((chunkMarks c.length).map (fun m => (Int.ofNat m, f.size))) pr
  refine ⟨p', os, ?_⟩
  unfold File.validate
  simp only [hsup, hc, hrun]

/-- `File.validate` raises on an unreadable file (before any digesting). -/
theorem validate_absent {hs : HashSpec} {fs : Fs} {f : File}
    (pr : Progress) (q i : Bool) (n : Int)
    (hsup : firstUnsupported hs f.checksums = none)
    (hc : fsLookup fs (File.path f) = none) :
    File.validate hs fs f pr q i n = .error (.fileNotFound (File.path f)) := by
  unfold File.validate
  rw [hsup, hc]

/-- `File.validate` raises on the first unsupported algorithm name. -/
theorem validate_unsupported {hs : HashSpec} {fs : Fs} {f : File} {a : String}
    (pr : Progress) (q i : Bool) (n : Int)
    (hsup : firstUnsupported hs f.checksums = some a) :
    File.validate hs fs f pr q i n = .error (.unsupportedAlgo a) := by
  unfold File.validate
  rw [hsup]

/-- `File.download` on a resolvable URL: one fetch, one `size` assignment,
the body written at the file's path, and otherwise only progress output. -/
theorem download_char {net : Net} {f : File} {hdr : Option Int} {body : Bytes}
    (fs : Fs) (pr : Progress) (q i : Bool) (n : Int)
    (hnet : netLookup net f.url = some (hdr, body)) :
    ∃ pr' outs, File.download net fs f pr q i n =
      .ok ({ f with size := hdrSize hdr }, fsSet fs (File.path f) body, pr',
           .fetch f.url :: .setSize (hdrSize hdr) :: List.map Ev.out outs) := by
  obtain ⟨p', os, hrun⟩ := runUpdates_ok q i n
    ((chunkMarks body.length).map (fun m => (Int.ofNat m, hdrSize hdr))) pr
  refine ⟨p', os, ?_⟩
  unfold File.download
  simp only [hnet, hrun]

/-- Progress output contains no fetch events. -/
theorem countP_isFetch_out (os : List Out) :
    List.countP isFetch (os.map Ev.out) = 0 := by
  rw [List.countP_map]
  exact List.countP_eq_zero.mpr (fun a _ => by simp [Function.comp, isFetch])

/-- Progress output contains no `size` assignments. -/
theorem countP_isSetSize_out (os : List Out) :
    List.countP isSetSize (os.map Ev.out) = 0 := by
  rw [List.countP_map]
  exact List.countP_eq_zero.mpr (fun a _ => by simp [Function.comp, isSetSize])

/-- Composed form of `countP_isFetch_out`. -/
theorem countP_comp_isFetch_out (os : List Out) :
    List.countP (isFetch ∘ Ev.out) os = 0 :=
  List.countP_eq_zero.mpr (fun a _ => by simp [Function.comp, isFetch])

/-- Composed form of `countP_isSetSize_out`. -/
theorem countP_comp_isSetSize_out (os : List Out) :
    List.countP (isSetSize ∘ Ev.out) os = 0 :=
  List.countP_eq_zero.mpr (fun a _ => by simp [Function.comp, isSetSize])

theorem countFetch_append (a b : List Ev) :
    countFetch (a ++ b) = countFetch a + countFetch b :=
  List.countP_append _ a b

theorem countSetSize_append (a b : List Ev) :
    countSetSize (a ++ b) = countSetSize a + countSetSize b :=
  List.countP_append _ a b

/-- The stable path is insensitive to `size` updates. -/
theorem path_size (f : File) (s : Int) :
    File.path { f with size := s } = File.path f := rfl

/-- `downloadPhase` when the URL does not resolve: the transport error
propagates. -/
theorem downloadPhase_network {hs : HashSpec} {net : Net} {f : File}
    (fs : Fs) (pr : Progress) (q i : Bool) (n : Int)
    (hnet : netLookup net f.url = none) :
    downloadPhase hs net fs f pr q i n = .error (.network f.url) := by
  simp only [downloadPhase, File.download, Progress.start, hnet]

/-- `downloadPhase` when the URL resolves but an algorithm is unsupported:
the configuration error propagates out of the re-verification. -/
theorem downloadPhase_unsupported {hs : HashSpec} {net : Net} {f : File}
    {hdr : Option Int} {body : Bytes} {a : String}
    (fs : Fs) (pr : Progress) (q i : Bool) (n : Int)
    (hnet : netLookup net f.url = some (hdr, body))
    (hsup : firstUnsupported hs f.checksums = some a) :
    downloadPhase hs net fs f pr q i n = .error (.unsupportedAlgo a) := by
  obtain ⟨prB, outsD, hdl⟩ := download_char fs
    { pfx := "    - downloading", start_ts := n, last := pr.last } q i n hnet
  have hval := @validate_unsupported hs (fsSet fs (File.path f) body)
    { f with size := hdrSize hdr } a
    { pfx := "    - checksuming", start_ts := n, last := prB.last } q i n hsup
  simp only [downloadPhase, Progress.start, hdl, hval]

/-- `downloadPhase` when the fetched body verifies: the fresh copy stays,
with exactly one fetch and one `size` assignment. -/
theorem downloadPhase_good {hs : HashSpec} {net : Net} {f : File}
    {hdr : Option Int} {body : Bytes}
    (fs : Fs) (pr : Progress) (q i : Bool) (n : Int)
    (hsup : firstUnsupported hs f.checksums = none)
    (hnet : netLookup net f.url = some (hdr, body))
    (hb : f.checksums.all (fun ad => hs.digest ad.1 body == ad.2) = true) :
    ∃ pr' evs, downloadPhase hs net fs f pr q i n =
      .ok (fsSet fs (File.path f) body, { f with size := hdrSize hdr }, pr', evs) ∧
      countFetch evs = 1 ∧ countSetSize evs = 1 := by
  obtain ⟨prB, outsD, hdl⟩ := download_char fs
    { pfx := "    - downloading", start_ts := n, last := pr.last } q i n hnet
  obtain ⟨prD, outsV, hval⟩ := @validate_char hs (fsSet fs (File.path f) body)
    { f with size := hdrSize hdr } body
    { pfx := "    - checksuming", start_ts := n, last := prB.last } q i n hsup
    (fsLookup_set_self fs (File.path f) body)
  simp only [downloadPhase, Progress.start, hdl, path_size, hval, hb,
    eq_self_iff_true, if_true]
  refine ⟨prD, _, rfl, ?_, ?_⟩
  · simp [countFetch, List.countP_append, List.countP_cons, isFetch,
      countP_isFetch_out, countP_comp_isFetch_out]
  · simp [countSetSize, List.countP_append, List.countP_cons, isSetSize,
      countP_isSetSize_out, countP_comp_isSetSize_out]

/-- `downloadPhase` when the fetched body still mismatches: the mismatch is
printed, the fresh copy is deleted, and the phase returns normally, with
exactly one fetch and one `size` assignment. -/
theorem downloadPhase_bad {hs : HashSpec} {net : Net} {f : File}
    {hdr : Option Int} {body : Bytes}
    (fs : Fs) (pr : Progress) (q i : Bool) (n : Int)
    (hsup : firstUnsupported hs f.checksums = none)
    (hnet : netLookup net f.url = some (hdr, body))
    (hb : f.checksums.all (fun ad => hs.digest ad.1 body == ad.2) = false) :
    ∃ pr' evs, downloadPhase hs net fs f pr q i n =
      .ok (fsRemove (fsSet fs (File.path f) body) (File.path f),
           { f with size := hdrSize hdr }, pr', evs) ∧
      countFetch evs = 1 ∧ countSetSize evs = 1 ∧
      Ev.print ("    - " ++ f.name ++ ": checksum mismatch") ∈ evs := by
  obtain ⟨prB, outsD, hdl⟩ := download_char fs
    { pfx := "    - downloading", start_ts := n, last := pr.last } q i n hnet
  obtain ⟨prD, outsV, hval⟩ := @validate_char hs (fsSet fs (File.path f) body)
    { f with size := hdrSize hdr } body
    { pfx := "    - checksuming", start_ts := n, last := prB.last } q i n hsup
    (fsLookup_set_self fs (File.path f) body)
  simp only [downloadPhase, Progress.start, hdl, path_size, hval, hb,
    if_neg Bool.false_ne_true]
  refine ⟨prD, _, rfl, ?_, ?_, ?_⟩
  · simp [countFetch, List.countP_append, List.countP_cons, isFetch,
      countP_isFetch_out, countP_comp_isFetch_out]
  · simp [countSetSize, List.countP_append, List.countP_cons, isSetSize,
      countP_isSetSize_out, countP_comp_isSetSize_out]
  · simp

/-- Everything `emit` ever prints is a multiple-of-ten percentage or a dot. -/
theorem emit_shape (ds : List Int) :
    ∀ o ∈ ds.flatMap emit,
      (∃ nn, o = .pct nn ∧ Int.emod nn 10 = 0) ∨ o = .dot := by
  induction ds with
  | nil => simp
  | cons g ds ih =>
    intro o ho
    rw [List.flatMap_cons, List.mem_append] at ho
    rcases ho with ho | ho
    · by_cases h10 : Int.emod g 10 = 0
      · rw [emit_pct g h10] at ho
        simp only [List.mem_singleton] at ho
        exact Or.inl ⟨g, ho, h10⟩
      · by_cases h2 : Int.emod g 2 = 0
        · rw [emit_dot g h10 h2] at ho
          simp only [List.mem_singleton] at ho
          exact Or.inr ho
        · rw [emit_none g h10 h2] at ho
          simp at ho
    · exact ih o ho

/-- C2: for a file whose local copy exists and whose content's digests match
all configured checksums, the per-file step of `processEntry` performs no
network fetch, prints the "already downloaded" status line, and returns
normally with the filesystem unchanged. -/
theorem C2_skip_when_valid {hs : HashSpec} (net : Net) {fs : Fs} {f : File}
    {c : Bytes} (pr : Progress) (q i : Bool) (n : Int)
    (hc : fsLookup fs (File.path f) = some c)
    (hsup : firstUnsupported hs f.checksums = none)
    (hok : ∀ ad ∈ f.checksums, hs.digest ad.1 c = ad.2) :
    ∃ f' pr' evs, processFile hs net fs f pr q i n = .ok (fs, f', pr', evs) ∧
      countFetch evs = 0 ∧
      Ev.print ("    - " ++ f.name ++ ": already downloaded") ∈ evs := by
  have hokb : (f.checksums.all fun ad => hs.digest ad.1 c == ad.2) = true := by
    rw [List.all_eq_true]
    intro ad had
    exact beq_iff_eq.mpr (hok ad had)
  have hex := existsCheck_some hc
  obtain ⟨pr', outs, hval⟩ := @validate_char hs fs
    { f with size := (c.length : Int) } c
    { pfx := "    - checksuming", start_ts := n, last := pr.last } q i n hsup hc
  simp only [processFile, hex, Progress.start, hval, hokb, eq_self_iff_true,
    if_true]
  refine ⟨_, pr', _, rfl, ?_, ?_⟩
  · simp [countFetch, List.countP_append, List.countP_cons, isFetch,
      countP_isFetch_out, countP_comp_isFetch_out]
  · simp

/-- Witness for C2: a concrete valid 3-byte local copy is skipped. -/
theorem C2_witness :
    fsLookup [("r/d/a", [5, 5, 5])] (File.path fW) = some [5, 5, 5] ∧
    (∀ ad ∈ fW.checksums, hsW.digest ad.1 [5, 5, 5] = ad.2) ∧
    ∃ f' pr' evs,
      processFile hsW [] [("r/d/a", [5, 5, 5])] fW Progress.init false false 0 =
        .ok ([("r/d/a", [5, 5, 5])], f', pr', evs) ∧
      countFetch evs = 0 ∧
      Ev.print ("    - " ++ fW.name ++ ": already downloaded") ∈ evs :=
  ⟨by decide, by decide,
   @C2_skip_when_valid hsW [] [("r/d/a", [5, 5, 5])] fW [5, 5, 5]
     Progress.init false false 0 (by decide) (by decide) (by decide)⟩

/-- C3: `validate` returns true iff, for every configured checksum
algorithm, the digest of the file's full contents equals the manifest's
recorded digest for that algorithm (exact, case-sensitive string equality);
in particular an empty checksum set always validates. -/
theorem C3_validate_iff {hs : HashSpec} {fs : Fs} {f : File} {c : Bytes}
    (pr : Progress) (q i : Bool) (n : Int)
    (hsup : firstUnsupported hs f.checksums = none)
    (hc : fsLookup fs (File.path f) = some c) :
    ∃ b pr' evs, File.validate hs fs f pr q i n = .ok (b, pr', evs) ∧
      (b = true ↔ ∀ ad ∈ f.checksums, hs.digest ad.1 c = ad.2) ∧
      (f.checksums = [] → b = true) := by
  obtain ⟨pr', outs, hval⟩ := validate_char pr q i n hsup hc
  refine ⟨_, pr', _, hval, ?_, ?_⟩
  · simp [List.all_eq_true]
  · intro h
    simp [h]

/-- Witness for C3: the verdict on a concrete 3-byte file. -/
theorem C3_witness :
    firstUnsupported hsW fW.checksums = none ∧
    ∃ b pr' evs,
      File.validate hsW [("r/d/a", [5, 5, 5])] fW Progress.init false false 0 =
        .ok (b, pr', evs) ∧
      (b = true ↔ ∀ ad ∈ fW.checksums, hsW.digest ad.1 [5, 5, 5] = ad.2) ∧
      (fW.checksums = [] → b = true) :=
  ⟨by decide,
   @C3_validate_iff hsW [("r/d/a", [5, 5, 5])] fW [5, 5, 5]
     Progress.init false false 0 (by decide) (by decide)⟩

/-- C5 (code defect): `Progress.update` itself never raises a division
fault — both guarded divisors are nonzero whenever the division runs — but
on a download with no declared `Content-Length` the source stores `-1` into
`size` and then prints a bogus negative percentage (here `-300%` for a
3-byte body) instead of reporting bytes-only progress without a
percentage. -/
theorem C5_missing_length :
    (∀ (p : Progress) (c t : Int) (q i : Bool) (n : Int),
        ∃ r, Progress.update p c t q i n = .ok r) ∧
    File.download net5 [] fW0 Progress.init false false 0 =
      .ok ({ fW0 with size := -1 },
           fsSet [] (File.path fW0) [7, 7, 7],
           { pfx := "", start_ts := 0, last := -300 },
           [.fetch "u", .setSize (-1), .out (.pct (-300))]) :=
  ⟨update_ok, by rfl⟩

/-- C9 (code defect): a run in which every entry is processed to the end
does not exit 0 on a fresh system: the final cleanup unlinks
`/tmp/downloader.lock` although it created `/tmp/download.lock`, so the
cleanup raises `FileNotFoundError` and the top level exits 99; status 0 is
reached only when the differently-named lock path happens to pre-exist. -/
theorem C9_lock_typo :
    mainModel hsW [] [] [] false false 0 =
      .error (.fileNotFound "/tmp/downloader.lock") ∧
    exitCode (mainModel hsW [] [] [] false false 0) = 99 ∧
    exitCode (mainModel hsW [] []
      [("/tmp/downloader.lock", [])] false false 0) = 0 :=
  ⟨by rfl, by decide, by decide⟩

/-- C8: a checksum configured with an unsupported algorithm name makes
`validate` raise a configuration error, which propagates uncaught through
the per-file step, the entry loop and `main` to the top level (exit 99)
instead of being swallowed or converted into a false verdict. -/
theorem C8_unsupported_algo {hs : HashSpec} (net : Net) {fs : Fs} {f : File}
    {a : String} {c : Bytes} (pr : Progress) (q i : Bool) (n : Int)
    (hsup : firstUnsupported hs f.checksums = some a)
    (hc : fsLookup fs (File.path f) = some c) :
    File.validate hs fs f pr q i n = .error (.unsupportedAlgo a) ∧
    processFile hs net fs f pr q i n = .error (.unsupportedAlgo a) ∧
    (∀ nm, Entry.download hs net { name := nm, files := [f] } fs q i n =
      .error (.unsupportedAlgo a)) ∧
    (∀ nm fs0,
      fsLookup (fsSet fs0 "/tmp/download.lock" []) (File.path f) = some c →
      exitCode (mainModel hs net [{ name := nm, files := [f] }] fs0 q i n) = 99) := by
  have hpf : ∀ (fsx : Fs) (prx : Progress),
      fsLookup fsx (File.path f) = some c →
      processFile hs net fsx f prx q i n = .error (.unsupportedAlgo a) := by
    intro fsx prx hcx
    have hex := existsCheck_some hcx
    have hval := @validate_unsupported hs fsx { f with size := (c.length : Int) } a
      { pfx := "    - checksuming", start_ts := n, last := prx.last } q i n hsup
    simp only [processFile, hex, Progress.start, hval]
  have hent : ∀ (nm : String) (fsx : Fs),
      fsLookup fsx (File.path f) = some c →
      Entry.download hs net { name := nm, files := [f] } fsx q i n =
        .error (.unsupportedAlgo a) := by
    intro nm fsx hcx
    simp only [Entry.download, entryFiles, hpf fsx Progress.init hcx]
  refine ⟨validate_unsupported pr q i n hsup, hpf fs pr hc,
    fun nm => hent nm fs hc, ?_⟩
  intro nm fs0 hc0
  simp only [mainModel, runEntries, hent nm _ hc0, exitCode]

/-- Witness for C8: the unsupported name "nope" aborts a concrete run with
status 99. -/
theorem C8_witness :
    firstUnsupported hsW fWbad.checksums = some "nope" ∧
    File.validate hsW [("r/d/a", [5, 5, 5])] fWbad Progress.init false false 0 =
      .error (.unsupportedAlgo "nope") ∧
    exitCode (mainModel hsW [] [{ name := "e", files := [fWbad] }]
      [("r/d/a", [5, 5, 5])] false false 0) = 99 := by
  have h := @C8_unsupported_algo hsW [] [("r/d/a", [5, 5, 5])] fWbad "nope"
    [5, 5, 5] Progress.init false false 0 (by decide) (by decide)
  exact ⟨by decide, h.1, h.2.2.2 "e" [("r/d/a", [5, 5, 5])] (by decide)⟩

/-- C10: `validate` presupposes its local path exists — on an absent path it
raises an uncaught file-not-found error rather than returning false — and
the orchestrator discharges the precondition: a per-file run never surfaces
a file-not-found error, because `validate` runs only after a successful
existence check or right after the download wrote the file. -/
theorem C10_validate_precondition {hs : HashSpec} {fs : Fs} {f : File}
    (pr : Progress) (q i : Bool) (n : Int)
    (hsup : firstUnsupported hs f.checksums = none)
    (habs : fsLookup fs (File.path f) = none) :
    File.validate hs fs f pr q i n = .error (.fileNotFound (File.path f)) ∧
    ∀ (k : HashSpec) (net : Net) (fsx : Fs) (g : File) (prx : Progress)
      (qx ix : Bool) (nx : Int) (p : String),
      processFile k net fsx g prx qx ix nx ≠ .error (.fileNotFound p) := by
  refine ⟨validate_absent pr q i n hsup habs, ?_⟩
  intro k net fsx g prx qx ix nx p
  rcases hl : fsLookup fsx (File.path g) with _ | c
  · -- no local copy: straight to the fetch phase
    have hex := existsCheck_none hl
    rcases hn : netLookup net g.url with _ | ⟨hdr, body⟩
    · have hdp := @downloadPhase_network k net g fsx prx qx ix nx hn
      simp only [processFile, hex, hdp]
      simp
    · rcases hsup' : firstUnsupported k g.checksums with _ | a
      · cases hvb : g.checksums.all (fun ad => k.digest ad.1 body == ad.2) with
        | true =>
          obtain ⟨pr2, evs, hdp, _, _⟩ :=
            @downloadPhase_good k net g hdr body fsx prx qx ix nx hsup' hn hvb
          simp only [processFile, hex, hdp]
          simp
        | false =>
          obtain ⟨pr2, evs, hdp, _, _, _⟩ :=
            @downloadPhase_bad k net g hdr body fsx prx qx ix nx hsup' hn hvb
          simp only [processFile, hex, hdp]
          simp
      · have hdp := @downloadPhase_unsupported k net g hdr body a fsx prx qx ix nx hn hsup'
        simp only [processFile, hex, hdp]
        simp
  · -- local copy found: verify first
    have hex := existsCheck_some hl
    rcases hsup' : firstUnsupported k g.checksums with _ | a
    · obtain ⟨pr', outs, hval⟩ := @validate_char k fsx
        { g with size := (c.length : Int) } c
        { pfx := "    - checksuming", start_ts := nx, last := prx.last }
        qx ix nx hsup' hl
      cases hv : g.checksums.all (fun ad => k.digest ad.1 c == ad.2) with
      | true =>
        simp only [processFile, hex, Progress.start, hval, hv,
          eq_self_iff_true, if_true]
        simp
      | false =>
        rcases hn : netLookup net g.url with _ | ⟨hdr, body⟩
        · have hdp := @downloadPhase_network k net
            { g with size := (c.length : Int) }
            (fsRemove fsx (File.path { g with size := (c.length : Int) }))
            pr' qx ix nx hn
          simp only [processFile, hex, Progress.start, hval, hv,
            if_neg Bool.false_ne_true, hdp]
          simp
        · cases hvb : g.checksums.all (fun ad => k.digest ad.1 body == ad.2) with
          | true =>
            obtain ⟨pr2, evs, hdp, _, _⟩ :=
              @downloadPhase_good k net { g with size := (c.length : Int) } hdr body
                (fsRemove fsx (File.path { g with size := (c.length : Int) }))
                pr' qx ix nx hsup' hn hvb
            simp only [processFile, hex, Progress.start, hval, hv,
              if_neg Bool.false_ne_true, hdp]
            simp
          | false =>
            obtain ⟨pr2, evs, hdp, _, _, _⟩ :=
              @downloadPhase_bad k net { g with size := (c.length : Int) } hdr body
                (fsRemove fsx (File.path { g with size := (c.length : Int) }))
                pr' qx ix nx hsup' hn hvb
            simp only [processFile, hex, Progress.start, hval, hv,
              if_neg Bool.false_ne_true, hdp]
            simp
    · have hval := @validate_unsupported k fsx
        { g with size := (c.length : Int) } a
        { pfx := "    - checksuming", start_ts := nx, last := prx.last }
        qx ix nx hsup'
      simp only [processFile, hex, Progress.start, hval]
      simp

/-- Witness for C10: `validate` on a concrete absent path raises the
file-not-found error. -/
theorem C10_witness :
    File.validate hsW [] fW Progress.init false false 0 =
      .error (.fileNotFound (File.path fW)) ∧
    processFile hsW [] [] fW Progress.init false false 0 ≠
      .error (.fileNotFound (File.path fW)) := by
  have h := @C10_validate_precondition hsW [] fW Progress.init false false 0
    (by decide) (by decide)
  exact ⟨h.1, h.2 hsW [] [] fW Progress.init false false 0 (File.path fW)⟩

/-- C1: for a file whose stale local copy fails verification, the per-file
step deletes the stale copy, performs exactly one fetch — the deletion
preceding it — and re-verifies the fetched body; on a second mismatch it
prints the failure, deletes the fresh copy and returns normally (nothing is
raised), and in either case no second or third fetch is ever attempted for
that file. -/
theorem C1_retry_once {hs : HashSpec} {net : Net} {fs : Fs} {f : File}
    {c : Bytes} {hdr : Option Int} {body : Bytes} (pr : Progress)
    (q i : Bool) (n : Int)
    (hc : fsLookup fs (File.path f) = some c)
    (hsup : firstUnsupported hs f.checksums = none)
    (hbad : (f.checksums.all fun ad => hs.digest ad.1 c == ad.2) = false)
    (hnet : netLookup net f.url = some (hdr, body)) :
    ∃ fs' f' pr' t1 t2,
      processFile hs net fs f pr q i n = .ok (fs', f', pr', t1 ++ t2) ∧
      Ev.unlink (File.path f) ∈ t1 ∧ countFetch t1 = 0 ∧ countFetch t2 = 1 ∧
      ((f.checksums.all fun ad => hs.digest ad.1 body == ad.2) = false →
        fsLookup fs' (File.path f) = none ∧
        Ev.print ("    - " ++ f.name ++ ": checksum mismatch") ∈ t2) ∧
      ((f.checksums.all fun ad => hs.digest ad.1 body == ad.2) = true →
        fsLookup fs' (File.path f) = some body) := by
  have hex := existsCheck_some hc
  obtain ⟨prB, outs, hval⟩ := @validate_char hs fs
    { f with size := (c.length : Int) } c
    { pfx := "    - checksuming", start_ts := n, last := pr.last } q i n hsup hc
  cases hvb : f.checksums.all (fun ad => hs.digest ad.1 body == ad.2) with
  | true =>
    obtain ⟨pr2, evs, hdp, hf1, _⟩ :=
      @downloadPhase_good hs net { f with size := (c.length : Int) } hdr body
        (fsRemove fs (File.path f)) prB q i n hsup hnet hvb
    rw [path_size] at hdp
    simp only [processFile, hex, Progress.start, hval, hbad,
      if_neg Bool.false_ne_true, path_size, hdp]
    refine ⟨_, _, pr2, _, _, rfl, ?_, ?_, hf1, ?_, ?_⟩
    · simp
    · simp [countFetch, List.countP_append, List.countP_cons, isFetch,
        countP_isFetch_out, countP_comp_isFetch_out]
    · intro h
      simp at h
    · intro _
      exact fsLookup_set_self _ (File.path f) body
  | false =>
    obtain ⟨pr2, evs, hdp, hf1, _, hmem⟩ :=
      @downloadPhase_bad hs net { f with size := (c.length : Int) } hdr body
        (fsRemove fs (File.path f)) prB q i n hsup hnet hvb
    rw [path_size] at hdp
    simp only [processFile, hex, Progress.start, hval, hbad,
      if_neg Bool.false_ne_true, path_size, hdp]
    refine ⟨_, _, pr2, _, _, rfl, ?_, ?_, hf1, ?_, ?_⟩
    · simp
    · simp [countFetch, List.countP_append, List.countP_cons, isFetch,
        countP_isFetch_out, countP_comp_isFetch_out]
    · intro _
      exact ⟨fsLookup_remove_self _ (File.path f), hmem⟩
    · intro h
      simp at h

/-- Witness for C1: a 2-byte stale copy of a file expecting 3 bytes is
deleted, fetched once, and the healthy re-fetch is kept. -/
theorem C1_witness :
    fsLookup [("r/d/a", [1, 2])] (File.path fW) = some [1, 2] ∧
    (fW.checksums.all fun ad => hsW.digest ad.1 [1, 2] == ad.2) = false ∧
    ∃ fs' f' pr' t1 t2,
      processFile hsW netW [("r/d/a", [1, 2])] fW Progress.init false false 0 =
        .ok (fs', f', pr', t1 ++ t2) ∧
      Ev.unlink (File.path fW) ∈ t1 ∧ countFetch t1 = 0 ∧ countFetch t2 = 1 ∧
      ((fW.checksums.all fun ad => hsW.digest ad.1 [7, 7, 7] == ad.2) = false →
        fsLookup fs' (File.path fW) = none ∧
        Ev.print ("    - " ++ fW.name ++ ": checksum mismatch") ∈ t2) ∧
      ((fW.checksums.all fun ad => hsW.digest ad.1 [7, 7, 7] == ad.2) = true →
        fsLookup fs' (File.path fW) = some [7, 7, 7]) :=
  ⟨by decide, by decide,
   @C1_retry_once hsW netW [("r/d/a", [1, 2])] fW [1, 2] (some 3) [7, 7, 7]
     Progress.init false false 0 (by decide) (by decide) (by decide) (by decide)⟩

/-- C7 is false as stated: a complete, successful per-file run of a file
with no pre-existing local copy assigns `size` exactly once (by the
download), not twice. -/
theorem C7_counterexample :
    countSetSize (traceOfPF
      (processFile hsW netW [] fW Progress.init false false 0)) = 1 ∧
    (processFile hsW netW [] fW Progress.init false false 0).isOk = true := by
  exact ⟨by decide, by decide⟩

/-- C7 (amended): `size` is 0 at construction; in a per-file run it is
assigned by the existence check exactly when the local file exists and once
per fetch — so once on the skip path and on the fresh-download path, twice
on the stale-mismatch path, and never more than twice. -/
theorem C7_size_mutations :
    (∀ r nm d u cks, (File.make r nm d u cks).size = 0) ∧
    ∀ (hs : HashSpec) (net : Net) (fs : Fs) (f : File) (pr : Progress)
      (q i : Bool) (n : Int) (fs' : Fs) (f' : File) (pr' : Progress)
      (evs : List Ev),
      processFile hs net fs f pr q i n = .ok (fs', f', pr', evs) →
      countSetSize evs =
        (if (fsLookup fs (File.path f)).isSome then 1 else 0) + countFetch evs ∧
      countSetSize evs ≤ 2 := by
  refine ⟨fun r nm d u cks => rfl, ?_⟩
  intro hs net fs f pr q i n fs' f' pr' evs h
  rcases hl : fsLookup fs (File.path f) with _ | c
  · -- no local copy
    have hex := existsCheck_none hl
    rcases hn : netLookup net f.url with _ | ⟨hdr, body⟩
    · have hdp := @downloadPhase_network hs net f fs pr q i n hn
      simp only [processFile, hex, hdp] at h
      simp at h
    · rcases hsup : firstUnsupported hs f.checksums with _ | a
      · cases hvb : f.checksums.all (fun ad => hs.digest ad.1 body == ad.2) with
        | true =>
          obtain ⟨pr2, evs2, hdp, hf, hz⟩ :=
            @downloadPhase_good hs net f hdr body fs pr q i n hsup hn hvb
          simp only [processFile, hex, hdp, Except.ok.injEq, Prod.mk.injEq] at h
          obtain ⟨-, -, -, h4⟩ := h
          subst h4
          simp only [countSetSize, countFetch] at hf hz ⊢
          simp [List.countP_append, List.countP_cons, isFetch, isSetSize,
            hf, hz, hl]
        | false =>
          obtain ⟨pr2, evs2, hdp, hf, hz, -⟩ :=
            @downloadPhase_bad hs net f hdr body fs pr q i n hsup hn hvb
          simp only [processFile, hex, hdp, Except.ok.injEq, Prod.mk.injEq] at h
          obtain ⟨-, -, -, h4⟩ := h
          subst h4
          simp only [countSetSize, countFetch] at hf hz ⊢
          simp [List.countP_append, List.countP_cons, isFetch, isSetSize,
            hf, hz, hl]
      · have hdp := @downloadPhase_unsupported hs net f hdr body a fs pr q i n hn hsup
        simp only [processFile, hex, hdp] at h
        simp at h
  · -- local copy exists
    have hex := existsCheck_some hl
    rcases hsup : firstUnsupported hs f.checksums with _ | a
    · obtain ⟨prB, outs, hval⟩ := @validate_char hs fs
        { f with size := (c.length : Int) } c
        { pfx := "    - checksuming", start_ts := n, last := pr.last } q i n hsup hl
      cases hv : f.checksums.all (fun ad => hs.digest ad.1 c == ad.2) with
      | true =>
        simp only [processFile, hex, Progress.start, hval, hv,
          eq_self_iff_true, if_true, Except.ok.injEq, Prod.mk.injEq] at h
        obtain ⟨-, -, -, h4⟩ := h
        subst h4
        simp only [countSetSize, countFetch]
        simp [List.countP_append, List.countP_cons, isFetch, isSetSize,
          countP_comp_isFetch_out, countP_comp_isSetSize_out, hl]
      | false =>
        rcases hn : netLookup net f.url with _ | ⟨hdr, body⟩
        · have hdp := @downloadPhase_network hs net
            { f with size := (c.length : Int) }
            (fsRemove fs (File.path f)) prB q i n hn
          simp only [processFile, hex, Progress.start, hval, hv,
            if_neg Bool.false_ne_true, path_size, hdp] at h
          simp at h
        · cases hvb : f.checksums.all (fun ad => hs.digest ad.1 body == ad.2) with
          | true =>
            obtain ⟨pr2, evs2, hdp, hf, hz⟩ :=
              @downloadPhase_good hs net { f with size := (c.length : Int) }
                hdr body (fsRemove fs (File.path f)) prB q i n hsup hn hvb
            rw [path_size] at hdp
            simp only [processFile, hex, Progress.start, hval, hv,
              if_neg Bool.false_ne_true, path_size, hdp, Except.ok.injEq,
              Prod.mk.injEq] at h
            obtain ⟨-, -, -, h4⟩ := h
            subst h4
            simp only [countSetSize, countFetch] at hf hz ⊢
            simp [List.countP_append, List.countP_cons, isFetch, isSetSize,
              countP_comp_isFetch_out, countP_comp_isSetSize_out, hf, hz, hl]
          | false =>
            obtain ⟨pr2, evs2, hdp, hf, hz, -⟩ :=
              @downloadPhase_bad hs net { f with size := (c.length : Int) }
                hdr body (fsRemove fs (File.path f)) prB q i n hsup hn hvb
            rw [path_size] at hdp
            simp only [processFile, hex, Progress.start, hval, hv,
              if_neg Bool.false_ne_true, path_size, hdp, Except.ok.injEq,
              Prod.mk.injEq] at h
            obtain ⟨-, -, -, h4⟩ := h
            subst h4
            simp only [countSetSize, countFetch] at hf hz ⊢
            simp [List.countP_append, List.countP_cons, isFetch, isSetSize,
              countP_comp_isFetch_out, countP_comp_isSetSize_out, hf, hz, hl]
    · have hval := @validate_unsupported hs fs
        { f with size := (c.length : Int) } a
        { pfx := "    - checksuming", start_ts := n, last := pr.last } q i n hsup
      simp only [processFile, hex, Progress.start, hval] at h
      simp at h

/-- Witness for the amended C7: a quiet skip run assigns `size` once. -/
theorem C7_witness :
    processFile hsW [] [("r/d/a", [5, 5, 5])] fW Progress.init true false 0 =
      .ok ([("r/d/a", [5, 5, 5])], { fW with size := 3 },
           { pfx := "    - checksuming", start_ts := 0, last := -1 },
           [Ev.print "  + a:", Ev.setSize 3, Ev.out Out.newline,
            Ev.print "    - a: already downloaded"]) ∧
    countSetSize
        [Ev.print "  + a:", Ev.setSize 3, Ev.out Out.newline,
         Ev.print "    - a: already downloaded"] =
      (if (fsLookup [("r/d/a", [5, 5, 5])] (File.path fW)).isSome then 1 else 0) +
        countFetch
          [Ev.print "  + a:", Ev.setSize 3, Ev.out Out.newline,
           Ev.print "    - a: already downloaded"] ∧
    countSetSize
        [Ev.print "  + a:", Ev.setSize 3, Ev.out Out.newline,
         Ev.print "    - a: already downloaded"] ≤ 2 := by
  have heq : processFile hsW [] [("r/d/a", [5, 5, 5])] fW Progress.init true false 0 =
      .ok ([("r/d/a", [5, 5, 5])], { fW with size := 3 },
           { pfx := "    - checksuming", start_ts := 0, last := -1 },
           [Ev.print "  + a:", Ev.setSize 3, Ev.out Out.newline,
            Ev.print "    - a: already downloaded"]) := by rfl
  exact ⟨heq, C7_size_mutations.2 hsW [] [("r/d/a", [5, 5, 5])] fW
    Progress.init true false 0 _ _ _ _ heq⟩

/-- C6 is false as stated: `Progress.start` does not begin a fresh session —
it keeps the previous operation's last-printed-percentage (here 100, where a
fresh session holds -1) — and in a concrete entry run whose three operations
each reach 100%, only the first prints `100%`; the later operations' final
ticks are suppressed by the carried-over dedup value. -/
theorem C6_counterexample :
    (Progress.start { pfx := "", start_ts := 0, last := 100 }
      "    - downloading" 0 false false).1.last = 100 ∧
    Progress.init.last = -1 ∧
    countHeaders (evsOfEntry (Entry.download hsW net6 eC6 fs6 false false 0)) = 3 ∧
    countPct100 (evsOfEntry (Entry.download hsW net6 eC6 fs6 false false 0)) = 1 :=
  ⟨rfl, rfl, by decide, by decide⟩

/-- C6 (amended): one progress object is created per entry, fresh with dedup
value -1; each operation's `start` resets only the label prefix and the
start timestamp, so the last-printed-percentage persists from one operation
to the next within an entry, and a percentage equal to the carried-over
value is suppressed even at an operation boundary. -/
theorem C6_session_carryover :
    (∀ (p : Progress) (s : String) (now : Int) (q i : Bool),
        (Progress.start p s now q i).1 =
          { pfx := s, start_ts := now, last := p.last }) ∧
    Progress.init.last = -1 ∧
    (∀ (p : Progress) (c t now : Int), c ≠ 0 → t ≠ 0 →
        Int.tdiv (100 * c) t = p.last →
        Progress.update p c t false false now = .ok (p, [])) := by
  refine ⟨fun p s now q i => rfl, rfl, ?_⟩
  intro p c t now hc ht hprog
  rw [update_nontty p c t now hc ht]
  unfold tick
  rw [if_pos hprog]

/-- Witness for the amended C6: a 100% tick is suppressed by a
carried-over dedup value of 100. -/
theorem C6_witness :
    Progress.update { pfx := "", start_ts := 0, last := 100 } 512 512
      false false 0 = .ok ({ pfx := "", start_ts := 0, last := 100 }, []) :=
  C6_session_carryover.2.2 { pfx := "", start_ts := 0, last := 100 } 512 512 0
    (by decide) (by decide) (by decide)

/-- C4: in non-interactive, non-quiet mode, over any monotonically
increasing percentage stream a fresh progress session prints each occurring
multiple of ten exactly once and in strictly increasing order (so never the
same percentage twice), one dot per distinct even non-multiple-of-ten
percentage, and nothing at all for odd percentages. -/
theorem C4_tick_stream (pairs : List (Int × Int)) (p : Progress) (n : Int)
    (hpos : ∀ ct ∈ pairs, 0 < ct.1 ∧ 0 < ct.2)
    (hmono : (pairs.map progOf).Pairwise (· ≤ ·))
    (hlast : p.last = -1) :
    ∃ p' os, runUpdates false false n p pairs = .ok (p', os) ∧
      (printedPcts os).Pairwise (· < ·) ∧
      (∀ x, x ∈ printedPcts os ↔ x ∈ pairs.map progOf ∧ Int.emod x 10 = 0) ∧
      countDots os = ((pairs.map progOf).toFinset.filter
        (fun g => ¬ Int.emod g 10 = 0 ∧ Int.emod g 2 = 0)).card ∧
      (∀ o ∈ os, (∃ nn, o = .pct nn ∧ Int.emod nn 10 = 0) ∨ o = .dot) := by
  have hnz : ∀ ct ∈ pairs, ct.1 ≠ 0 ∧ ct.2 ≠ 0 := by
    intro ct hct
    have h := hpos ct hct
    exact ⟨by omega, by omega⟩
  have hrun := runUpdates_nontty n pairs p hnz
  rw [ticksSpec_eq] at hrun
  have hge : ∀ g ∈ pairs.map progOf, 0 ≤ g := by
    intro g hg
    obtain ⟨ct, hct, rfl⟩ := List.mem_map.mp hg
    have h1 := (hpos ct hct).1
    have h2 := (hpos ct hct).2
    exact Int.tdiv_nonneg (by omega) (by omega)
  have hlt : ∀ g ∈ pairs.map progOf, p.last ≤ g := by
    intro g hg
    have := hge g hg
    rw [hlast]
    omega
  refine ⟨_, _, hrun, ?_, ?_, ?_, ?_⟩
  · rw [printedPcts_flatMap]
    exact (pairwise_dedupFrom _ p.last hmono hlt).filter _
  · intro x
    rw [printedPcts_flatMap, List.mem_filter,
      mem_dedupFrom (pairs.map progOf) p.last x hmono hlt]
    constructor
    · rintro ⟨⟨hx, -⟩, hx10⟩
      exact ⟨hx, by simpa using hx10⟩
    · rintro ⟨hx, hx10⟩
      have := hge x hx
      refine ⟨⟨hx, ?_⟩, by simpa using hx10⟩
      rw [hlast]
      omega
  · rw [countDots_flatMap]
    have hnd : ((dedupFrom p.last (pairs.map progOf)).filter
        (fun g => ¬ Int.emod g 10 = 0 ∧ Int.emod g 2 = 0)).Nodup :=
      ((pairwise_dedupFrom _ p.last hmono hlt).filter _).imp
        (fun h => ne_of_lt h)
    rw [← List.toFinset_card_of_nodup hnd]
    congr 1
    ext x
    simp only [List.mem_toFinset, List.mem_filter, Finset.mem_filter,
      mem_dedupFrom (pairs.map progOf) p.last x hmono hlt, decide_eq_true_eq]
    constructor
    · rintro ⟨⟨hx, -⟩, hcond⟩
      exact ⟨hx, hcond⟩
    · rintro ⟨hx, hcond⟩
      have := hge x hx
      refine ⟨⟨hx, ?_⟩, hcond⟩
      rw [hlast]
      omega
  · exact emit_shape _

/-- Witness for C4: the stream 48%, 50%, 75%, 100% prints `50% 100%` as
percentages and one dot (for 48), nothing for 75. -/
theorem C4_witness :
    (∀ ct ∈ [((12 : Int), (25 : Int)), (1, 2), (3, 4), (1, 1)],
        0 < ct.1 ∧ 0 < ct.2) ∧
    ∃ p' os, runUpdates false false 0 Progress.init
        [((12 : Int), (25 : Int)), (1, 2), (3, 4), (1, 1)] = .ok (p', os) ∧
      (printedPcts os).Pairwise (· < ·) ∧
      (∀ x, x ∈ printedPcts os ↔
        x ∈ [((12 : Int), (25 : Int)), (1, 2), (3, 4), (1, 1)].map progOf ∧
        Int.emod x 10 = 0) ∧
      countDots os =
        (([((12 : Int), (25 : Int)), (1, 2), (3, 4), (1, 1)].map progOf).toFinset.filter
          (fun g => ¬ Int.emod g 10 = 0 ∧ Int.emod g 2 = 0)).card ∧
      (∀ o ∈ os, (∃ nn, o = .pct nn ∧ Int.emod nn 10 = 0) ∨ o = .dot) :=
  ⟨by decide,
   C4_tick_stream [((12 : Int), (25 : Int)), (1, 2), (3, 4), (1, 1)]
     Progress.init 0 (by decide) (by decide) rfl⟩

end Downloader
